import Mathlib

/-!
Shallow embedding of the core pipeline of `city_insights_api`
(Commerce_Place_2.0): grid ingestion (`services/carroyage.py`),
clustering-quality helpers (`services/metrics.py`), zone synthesis
(`services/pipeline.py`) and the density-weighting subset of the map
builder (`services/map_builder.py`).

Floating-point numbers of the Python code are modelled as rationals;
NaN values are modelled explicitly where the code manipulates them
(missing populations, undefined clustering scores).  External library
calls (the pyproj coordinate transform and the scikit-learn KMeans
fit/predict) are not code of this repository; they enter the embedding
as explicit parameters (a transform function, a label assignment and a
prediction list), exactly the data the code reads back from them.
-/

namespace CityInsights

/-- `models/domain.py` `BoundingBox`: four plain floats, no validator. -/
structure BBox where
  south : ℚ
  west : ℚ
  north : ℚ
  east : ℚ
deriving DecidableEq, Repr

/-- A value read from one numeric CSV field: a parsed number, a missing
value (NaN after `read_csv`), or an unparsable token (which leaves the
column as `object` dtype and makes `astype(float)` raise). -/
inductive RawVal where
  | num (q : ℚ)
  | nan
  | bad
deriving DecidableEq, Repr

/-- One row of the INSEE grid CSV: the two projected coordinates and the
population column (`X`, `Y`, `ind_c` in `carroyage.py`). -/
structure RawRow where
  x : RawVal
  y : RawVal
  pop : RawVal
deriving DecidableEq, Repr

/-- A surviving grid cell as built in `InseeCarroyageGenerator.generate`. -/
structure Cell where
  lat : ℚ
  lon : ℚ
  pop : ℚ
deriving DecidableEq, Repr

/-- Python `int(round(x))`: round half to even, as `round` does. -/
def pyRound (q : ℚ) : ℤ :=
  if Int.fract q < 1/2 then ⌊q⌋
  else if 1/2 < Int.fract q then ⌊q⌋ + 1
  else if Even ⌊q⌋ then ⌊q⌋ else ⌊q⌋ + 1

/-- `True` when some field of the row is an unparsable token; in that
case the column-wide `astype(float)` (for `X`/`Y`) or the `> 0`
comparison on the object-dtype population column raises, aborting the
whole `generate` call. -/
def hasBad (r : RawRow) : Bool :=
  (r.x = RawVal.bad) ∨ (r.y = RawVal.bad) ∨ (r.pop = RawVal.bad)

/-- The population value after `fillna(0)`: NaN becomes `0`. -/
def popFill (r : RawRow) : ℚ :=
  match r.pop with
  | RawVal.num q => q
  | _ => 0

/-- The row-survival mask of `generate`: both coordinates parse to
numbers, the reprojected point (file units × 100, then the EPSG:3035 →
EPSG:4326 transform `T`, returning `(lon, lat)` because of
`always_xy=True`) lies inside the bbox, and the filled population is
strictly positive.  A NaN coordinate propagates through the transform
and fails every comparison, so such rows never survive. -/
def survives (T : ℚ → ℚ → ℚ × ℚ) (b : BBox) (r : RawRow) : Bool :=
  match r.x, r.y with
  | RawVal.num a, RawVal.num c =>
      let p := T (a * 100) (c * 100)
      decide (b.south ≤ p.2 ∧ p.2 ≤ b.north ∧ b.west ≤ p.1 ∧ p.1 ≤ b.east
        ∧ 0 < popFill r)
  | _, _ => false

/-- The cell record appended for a surviving row. -/
def toCell (T : ℚ → ℚ → ℚ × ℚ) (r : RawRow) : Cell :=
  match r.x, r.y with
  | RawVal.num a, RawVal.num c =>
      let p := T (a * 100) (c * 100)
      ⟨p.2, p.1, popFill r⟩
  | _, _ => ⟨0, 0, popFill r⟩

/-- The payload assembled at the end of `generate` (the parts the claims
are about). -/
structure GenOut where
  cells : List Cell
  count_cells : ℕ
  total_population : ℤ
deriving DecidableEq, Repr

/-- One accumulation step of the row loop in `generate`: a surviving row
appends its cell and adds its population to the running total. -/
def genStep (T : ℚ → ℚ → ℚ × ℚ) (b : BBox) (acc : List Cell × ℚ) (r : RawRow) :
    List Cell × ℚ :=
  if survives T b r then (acc.1 ++ [toCell T r], acc.2 + popFill r) else acc

/-- `InseeCarroyageGenerator.generate` over an in-memory row list.  Any
row with an unparsable numeric field makes the pandas conversion raise,
which aborts the call (`Except.error`); otherwise the rows are filtered
by `survives`, accumulated in order, and the total is rounded with
Python's `round`. -/
def generate (T : ℚ → ℚ → ℚ × ℚ) (b : BBox) (rows : List RawRow) :
    Except Unit GenOut :=
  if rows.any hasBad then Except.error ()
  else
    let acc := rows.foldl (genStep T b) ([], 0)
    Except.ok ⟨acc.1, acc.1.length, pyRound acc.2⟩

/-!  `services/map_builder.py`: the quantile helper and the heat-map
weighting. -/

/-- `MapBuilder._quantile`: linear interpolation between order
statistics of an (assumed sorted) value list. -/
def quantile (values : List ℚ) (q : ℚ) : ℚ :=
  if values = [] then 0
  else if q ≤ 0 then values.headD 0
  else if 1 ≤ q then values.getLastD 0
  else if (⌊((values.length : ℚ) - 1) * q⌋).toNat =
      (⌈((values.length : ℚ) - 1) * q⌉).toNat then
    values.getD (⌊((values.length : ℚ) - 1) * q⌋).toNat 0
  else
    values.getD (⌊((values.length : ℚ) - 1) * q⌋).toNat 0 *
        (1 - (((values.length : ℚ) - 1) * q -
          ((⌊((values.length : ℚ) - 1) * q⌋ : ℤ) : ℚ))) +
      values.getD (⌈((values.length : ℚ) - 1) * q⌉).toNat 0 *
        (((values.length : ℚ) - 1) * q -
          ((⌊((values.length : ℚ) - 1) * q⌋ : ℤ) : ℚ))

/-- `MapBuilder._clamp`. -/
def clamp (value lo hi : ℚ) : ℚ := max lo (min hi value)

/-- The sorting of the raw populations done by Python's `sorted` before
the percentile computations. -/
def sortAsc (l : List ℚ) : List ℚ := l.insertionSort (· ≤ ·)

/-- The transformed 5th percentile `lo_t` of `_add_heatmap`.  `T`
abstracts `MapBuilder._transform_pop` (for the default `log` scale it is
`p ↦ log (1 + max 0 p)`, a real-valued function; the `linear` scale is
`transformLinear` below). -/
def loT (T : ℚ → ℚ) (pops : List ℚ) : ℚ := T (quantile (sortAsc pops) (5/100))

/-- The transformed 95th percentile `hi_t` of `_add_heatmap`. -/
def hiT (T : ℚ → ℚ) (pops : List ℚ) : ℚ := T (quantile (sortAsc pops) (95/100))

/-- The normalization denominator of `_add_heatmap`: the transformed
percentile spread when it exceeds `1e-12`, else `1.0`. -/
def denom (T : ℚ → ℚ) (pops : List ℚ) : ℚ :=
  if hiT T pops - loT T pops > 1/1000000000000 then hiT T pops - loT T pops
  else 1

/-- The per-cell heat weight `weight(pop_raw)` of `_add_heatmap`. -/
def heatWeight (T : ℚ → ℚ) (pops : List ℚ) (p : ℚ) : ℚ :=
  max (3/100) (clamp ((T p - loT T pops) / denom T pops) 0 1)

/-- The weights attached to the heat-map points, one per cell, computed
against the percentiles of the whole cell list. -/
def heatWeights (T : ℚ → ℚ) (cells : List Cell) : List ℚ :=
  cells.map (fun c => heatWeight T (cells.map Cell.pop) c.pop)

/-- `MapBuilder._transform_pop` with `scale = "linear"`: clamps at zero
and returns the population unchanged. -/
def transformLinear (p : ℚ) : ℚ := max 0 p

/-!  `services/metrics.py`: the k-range suggestion. -/

/-- `KMeansEvaluator._adaptive_range`. -/
def adaptiveRange (cellCount : ℕ) : ℤ × ℤ :=
  if cellCount < 20 then (2, 4)
  else if cellCount < 60 then (3, 6)
  else if cellCount < 150 then (4, 8)
  else if cellCount < 300 then (5, 10)
  else if cellCount < 600 then (6, 12)
  else (8, 15)

/-- `KMeansEvaluator.suggest_k_range` with the constructor defaults
`default_k_min = 2`, `default_k_max = 10`; `kmin?`/`kmax?` are the
optional explicit overrides. -/
def suggestKRange (cellCount : ℕ) (kmin? kmax? : Option ℤ) : ℤ × ℤ :=
  let start :=
    match kmin?, kmax? with
    | none, none => adaptiveRange cellCount
    | _, _ => (kmin?.getD 2, kmax?.getD 10)
  let maxAllowed : ℤ := max 2 ((cellCount : ℤ) - 1)
  let minK := max 2 (min start.1 maxAllowed)
  let maxK := max minK (min start.2 maxAllowed)
  let maxK' := if maxK ≤ minK ∧ maxAllowed > minK then min maxAllowed (minK + 1)
    else maxK
  (minK, maxK')

/-!  `services/pipeline.py`: bbox extraction, cluster-count choice and
zone synthesis.  A clustering score is `Option ℚ`: `none` models both
Python `None` and NaN, which `_choose_k` skips with the same test. -/

/-- The metrics record `KMeansMetrics` as consumed by `_choose_k`. -/
structure MetricsL where
  k_values : List ℕ
  inertia : List ℚ
  silhouette : List (Option ℚ)
  davies_bouldin : List (Option ℚ)
deriving DecidableEq, Repr

/-- `PipelineService._extract_bbox`: reads the `bbox` field of the
commerce JSON; the only failure is a missing / non-dict field.  The
four numbers are stored as-is — `BoundingBox` has no validator. -/
def extractBbox (bbox? : Option (ℚ × ℚ × ℚ × ℚ)) : Except String BBox :=
  match bbox? with
  | none => Except.error "Champ bbox manquant dans le JSON de commerce"
  | some (s, w, n, e) => Except.ok ⟨s, w, n, e⟩

/-- The maximum-score loop of `_choose_k` (silhouette): running best
index and score, starting from `-inf` modelled as `none`; `none` scores
(Python `None` or NaN) are skipped; a strictly greater score updates. -/
def bestMaxAux (scores : List (Option ℚ)) (idx : ℕ) (best : Option (ℕ × ℚ)) :
    Option (ℕ × ℚ) :=
  match scores with
  | [] => best
  | none :: rest => bestMaxAux rest (idx + 1) best
  | some s :: rest =>
      match best with
      | none => bestMaxAux rest (idx + 1) (some (idx, s))
      | some (bi, bs) =>
          if bs < s then bestMaxAux rest (idx + 1) (some (idx, s))
          else bestMaxAux rest (idx + 1) (some (bi, bs))

/-- The minimum-score loop of `_choose_k` (Davies–Bouldin), dual to
`bestMaxAux` with `+inf` start and strictly-smaller updates. -/
def bestMinAux (scores : List (Option ℚ)) (idx : ℕ) (best : Option (ℕ × ℚ)) :
    Option (ℕ × ℚ) :=
  match scores with
  | [] => best
  | none :: rest => bestMinAux rest (idx + 1) best
  | some s :: rest =>
      match best with
      | none => bestMinAux rest (idx + 1) (some (idx, s))
      | some (bi, bs) =>
          if s < bs then bestMinAux rest (idx + 1) (some (idx, s))
          else bestMinAux rest (idx + 1) (some (bi, bs))

/-- The size heuristic at the end of `_choose_k`. -/
def sizeHeuristic (cellCount : ℕ) : ℕ :=
  if cellCount ≤ 5 then 2
  else if cellCount ≤ 50 then 3
  else if cellCount ≤ 150 then 4
  else 5

/-- `PipelineService._choose_k`. -/
def chooseK (metrics? : Option MetricsL) (cellCount : ℕ) : ℕ :=
  match metrics? with
  | some m =>
      if m.k_values ≠ [] then
        match bestMaxAux m.silhouette 0 none with
        | some (bi, _) => m.k_values.getD bi 0
        | none =>
            match bestMinAux m.davies_bouldin 0 none with
            | some (bi, _) => m.k_values.getD bi 0
            | none => sizeHeuristic cellCount
      else sizeHeuristic cellCount
  | none => sizeHeuristic cellCount

/-- An intermediate zone record of `_build_zones` before ranking. -/
structure RawZone where
  cluster : ℕ
  lat : ℚ
  lon : ℚ
  population : ℚ
  bounds : BBox
deriving DecidableEq, Repr

/-- `ZoneInsight` of `models/domain.py`. -/
structure ZoneInsight where
  zone_id : ℕ
  lat : ℚ
  lon : ℚ
  population : ℚ
  existing_commerces : ℕ
  bounds : BBox
deriving DecidableEq, Repr

/-- Weighted average `np.average(xs, weights=ws)` of the member
coordinates (total division; the pipeline only reaches it with strictly
positive population weights). -/
def wavg (xs ws : List ℚ) : ℚ :=
  ((xs.zip ws).map (fun p => p.1 * p.2)).sum / ws.sum

/-- The per-cluster aggregation of `_build_zones` for one non-empty
member list: weighted centroid, summed population, and the axis-aligned
extent of the member coordinates. -/
def mkRawZone (idx : ℕ) (members : List Cell) : RawZone :=
  let lats := members.map Cell.lat
  let lons := members.map Cell.lon
  let ws := members.map Cell.pop
  { cluster := idx
    lat := wavg lats ws
    lon := wavg lons ws
    population := ws.sum
    bounds :=
      { south := lats.foldr min (lats.headD 0)
        north := lats.foldr max (lats.headD 0)
        west := lons.foldr min (lons.headD 0)
        east := lons.foldr max (lons.headD 0) } }

/-- The `raw_zones` loop of `_build_zones`: for each cluster index in
`range k`, collect the member cells (`labels == idx`) and skip empty
clusters. -/
def rawZones (cells : List Cell) (labels : List ℕ) (k : ℕ) : List RawZone :=
  (List.range k).filterMap (fun idx =>
    let members := ((cells.zip labels).filter (fun p => p.2 = idx)).map Prod.fst
    if members = [] then none else some (mkRawZone idx members))

/-- `raw_zones.sort(key=population, reverse=True)`: Python's sort is
stable, so this is a stable descending sort on the population key. -/
def sortZones (zs : List RawZone) : List RawZone :=
  zs.insertionSort (fun a b => b.population ≤ a.population)

/-- `enumerate(raw_zones, start=1)` turned into `ZoneInsight` records;
`counts` gives each cluster's commerce count. -/
def attachIds (counts : ℕ → ℕ) (start : ℕ) (zs : List RawZone) :
    List ZoneInsight :=
  match zs with
  | [] => []
  | z :: rest =>
      { zone_id := start
        lat := z.lat
        lon := z.lon
        population := z.population
        existing_commerces := counts z.cluster
        bounds := z.bounds } :: attachIds counts (start + 1) rest

/-- `PipelineService._build_zones`.  `labels` is the KMeans label list
returned by `fit_predict` for `cells` (one label per cell) and
`predicted` the labels `model.predict` returns for the parsed commerce
coordinates; both are outputs of the external scikit-learn model and
therefore parameters of the embedding.  `commerce_counts` initializes
every index of `range k` to `0` and then counts predicted labels, so a
zone's count is the number of predictions equal to its cluster. -/
def buildZones (cells : List Cell)
    (metrics? : Option MetricsL) (labels : List ℕ) (predicted : List ℕ) :
    List ZoneInsight :=
  if cells = [] then []
  else if chooseK metrics? cells.length < 2 ∨
      cells.length < chooseK metrics? cells.length then []
  else
    attachIds (fun idx => (predicted.filter (fun l => l = idx)).length) 1
      (sortZones (rawZones cells labels (chooseK metrics? cells.length)))

/-!  ## Theorems -/

/-- C10: for every cell count and any explicit k_min/k_max overrides,
the `(kMin, kMax)` pair returned by `suggest_k_range` satisfies
`2 ≤ kMin ≤ kMax ≤ max 2 (cellCount − 1)` on every code path. -/
theorem suggest_k_range_invariant (n : ℕ) (kmin? kmax? : Option ℤ) :
    2 ≤ (suggestKRange n kmin? kmax?).1 ∧
      (suggestKRange n kmin? kmax?).1 ≤ (suggestKRange n kmin? kmax?).2 ∧
      (suggestKRange n kmin? kmax?).2 ≤ max 2 ((n : ℤ) - 1) := by
  rcases kmin? with _ | a <;> rcases kmax? with _ | b <;>
    simp only [suggestKRange, adaptiveRange, Option.getD] <;>
    split_ifs <;> refine ⟨?_, ?_, ?_⟩ <;> omega

/-- Python's `round` fixes `0`. -/
theorem pyRound_zero : pyRound 0 = 0 := by
  unfold pyRound
  rw [Int.fract_zero, if_pos (by norm_num)]
  exact Int.floor_zero

/-- C3 counterexample: the bounding box `south = 1, west = 0, north = 0,
east = 1` has `south ≥ north` (and `west < east`), yet `_extract_bbox`
accepts it: no `InvalidBoundingBox` (or any other) error is raised. -/
theorem invalid_bbox_accepted :
    extractBbox (some (1, 0, 0, 1)) = Except.ok ⟨1, 0, 0, 1⟩ ∧
      (BBox.mk 1 0 0 1).north ≤ (BBox.mk 1 0 0 1).south :=
  ⟨rfl, by show (0 : ℚ) ≤ 1; norm_num⟩

/-- C3 amended: the pipeline performs no bounding-box ordering
validation — extraction succeeds for any four numbers — and an inverted
box (`north < south` or `east < west`) flows into ingestion, where the
interval filter simply keeps no row: the run ends normally with an
empty cell list, never with an error. -/
theorem bbox_never_validated (s w n e : ℚ) (T : ℚ → ℚ → ℚ × ℚ)
    (rows : List RawRow) :
    extractBbox (some (s, w, n, e)) = Except.ok ⟨s, w, n, e⟩ ∧
      ((∀ r ∈ rows, hasBad r = false) → (n < s ∨ e < w) →
        generate T ⟨s, w, n, e⟩ rows = Except.ok ⟨[], 0, 0⟩) := by
  constructor
  · rfl
  · intro hgood hinv
    have hsurv : ∀ r : RawRow, survives T ⟨s, w, n, e⟩ r = false := by
      intro r
      unfold survives
      rcases r with ⟨x, y, p⟩
      rcases x with q | _ | _ <;> rcases y with q' | _ | _ <;> try rfl
      simp only [decide_eq_false_iff_not]
      rintro ⟨h1, h2, h3, h4, -⟩
      rcases hinv with h | h
      · exact absurd (le_trans h1 h2) (by simp only [not_le]; linarith)
      · exact absurd (le_trans h3 h4) (by simp only [not_le]; linarith)
    have hfold : ∀ (l : List RawRow) (acc : List Cell × ℚ),
        l.foldl (genStep T ⟨s, w, n, e⟩) acc = acc := by
      intro l
      induction l with
      | nil => intro acc; rfl
      | cons r rest ih =>
          intro acc
          simp only [List.foldl_cons, genStep, hsurv r, Bool.false_eq_true,
            if_false]
          exact ih acc
    have hany : rows.any hasBad = false := by
      rw [List.any_eq_false]
      intro r hr
      simp [hgood r hr]
    unfold generate
    rw [hany]
    simp only [Bool.false_eq_true, if_false, hfold rows ([], 0)]
    rw [pyRound_zero]
    rfl

/-- C3 amended, witness: a concrete inverted box is accepted and a
well-formed in-box row is filtered out without error. -/
theorem bbox_never_validated_witness :
    extractBbox (some (1, 0, 0, 1)) = Except.ok ⟨1, 0, 0, 1⟩ ∧
      generate (fun a b => (a, b)) ⟨1, 0, 0, 1⟩
        [⟨RawVal.num 0, RawVal.num 0, RawVal.num 5⟩] = Except.ok ⟨[], 0, 0⟩ := by
  refine ⟨(bbox_never_validated 1 0 0 1 (fun a b => (a, b))
    [⟨RawVal.num 0, RawVal.num 0, RawVal.num 5⟩]).1, ?_⟩
  exact (bbox_never_validated 1 0 0 1 (fun a b => (a, b))
    [⟨RawVal.num 0, RawVal.num 0, RawVal.num 5⟩]).2 (by decide)
    (Or.inl (by norm_num))

/-- `attachIds` keeps the list length. -/
theorem attachIds_length (counts : ℕ → ℕ) (start : ℕ) (zs : List RawZone) :
    (attachIds counts start zs).length = zs.length := by
  induction zs generalizing start with
  | nil => rfl
  | cons z rest ih => simp [attachIds, ih]

/-- The stable sort keeps the list length. -/
theorem sortZones_length (zs : List RawZone) :
    (sortZones zs).length = zs.length :=
  (List.perm_insertionSort _ zs).length_eq

/-- C1 counterexample: with two cells and no metrics, `_choose_k` falls
back to `k = 2`, so the chosen `k` equals the cell count; the claim
demands an empty zone list, but `_build_zones` only bails out when
`len(cells) < k` and here proceeds to emit two zones. -/
theorem chosen_k_eq_cell_count_zones_nonempty :
    chooseK none ([⟨0, 0, 1⟩, ⟨1, 1, 1⟩] : List Cell).length =
        ([⟨0, 0, 1⟩, ⟨1, 1, 1⟩] : List Cell).length ∧
      buildZones [⟨0, 0, 1⟩, ⟨1, 1, 1⟩] none [0, 1] [] ≠ [] := by
  refine ⟨rfl, ?_⟩
  intro hempty
  have hlen : (buildZones [⟨0, 0, 1⟩, ⟨1, 1, 1⟩] none [0, 1] []).length = 2 := by
    show (attachIds _ 1 (sortZones (rawZones [⟨0, 0, 1⟩, ⟨1, 1, 1⟩] [0, 1] 2))).length = 2
    rw [attachIds_length, sortZones_length]
    rfl
  rw [hempty] at hlen
  exact absurd hlen (by decide)

/-- C1 amended: zone synthesis returns an empty zone list when the
chosen `k` is **strictly greater** than the cell count or smaller
than 2 (the guard is `k < 2 or len(cells) < k`); `k` equal to the cell
count is let through to the clustering. -/
theorem degenerate_k_empty_zones (cells : List Cell)
    (metrics? : Option MetricsL) (labels predicted : List ℕ)
    (h : chooseK metrics? cells.length < 2 ∨
      cells.length < chooseK metrics? cells.length) :
    buildZones cells metrics? labels predicted = [] := by
  unfold buildZones
  by_cases h1 : cells = []
  · rw [if_pos h1]
  · rw [if_neg h1, if_pos h]

/-- C1 amended, witness: one cell, no metrics: the fallback `k = 2`
exceeds the cell count, so synthesis yields no zones. -/
theorem degenerate_k_empty_zones_witness :
    buildZones [⟨0, 0, 1⟩] none [] [] = [] :=
  degenerate_k_empty_zones [⟨0, 0, 1⟩] none [] [] (Or.inr (by decide))

/-- C4 counterexample: a source of one well-formed row plus one row
whose `X` field is unparsable makes `generate` raise (the column-wide
`astype(float)` fails), while the same source with the malformed row
removed ingests fine — the bad row is not skipped individually. -/
theorem malformed_row_aborts_ingestion :
    generate (fun a b => (a, b)) ⟨0, 0, 10, 10⟩
        [⟨RawVal.num 0, RawVal.num 0, RawVal.num 5⟩,
          ⟨RawVal.bad, RawVal.num 0, RawVal.num 5⟩] = Except.error () ∧
      generate (fun a b => (a, b)) ⟨0, 0, 10, 10⟩
          [⟨RawVal.num 0, RawVal.num 0, RawVal.num 5⟩] ≠
        generate (fun a b => (a, b)) ⟨0, 0, 10, 10⟩
          [⟨RawVal.num 0, RawVal.num 0, RawVal.num 5⟩,
            ⟨RawVal.bad, RawVal.num 0, RawVal.num 5⟩] := by
  have herr : generate (fun a b => (a, b)) ⟨0, 0, 10, 10⟩
      [⟨RawVal.num 0, RawVal.num 0, RawVal.num 5⟩,
        ⟨RawVal.bad, RawVal.num 0, RawVal.num 5⟩] = Except.error () := rfl
  refine ⟨herr, ?_⟩
  rw [herr]
  have hany : ([⟨RawVal.num 0, RawVal.num 0, RawVal.num 5⟩] :
      List RawRow).any hasBad = false := by decide
  unfold generate
  rw [hany]
  simp

/-- C4 amended: any grid source containing a row with an unparsable
numeric field makes ingestion as a whole fail; malformed rows are never
skipped individually. -/
theorem malformed_row_fails_run (T : ℚ → ℚ → ℚ × ℚ) (b : BBox)
    (rows : List RawRow) (h : ∃ r ∈ rows, hasBad r = true) :
    generate T b rows = Except.error () := by
  unfold generate
  rw [if_pos (List.any_eq_true.mpr h)]

/-- C4 amended, witness: the two-row source with one bad `X` field
errors out. -/
theorem malformed_row_fails_run_witness :
    generate (fun a b => (a, b)) ⟨0, 0, 10, 10⟩
      [⟨RawVal.num 0, RawVal.num 0, RawVal.num 5⟩,
        ⟨RawVal.bad, RawVal.num 0, RawVal.num 5⟩] = Except.error () :=
  malformed_row_fails_run (fun a b => (a, b)) ⟨0, 0, 10, 10⟩ _
    ⟨⟨RawVal.bad, RawVal.num 0, RawVal.num 5⟩, by decide⟩

/-- Soundness of the silhouette maximum loop: a returned best pair is
either the starting best or sits in the score list at its recorded
offset, it dominates every defined score, and it dominates the starting
best. -/
theorem bestMaxAux_sound (scores : List (Option ℚ)) :
    ∀ (idx : ℕ) (best : Option (ℕ × ℚ)) (i : ℕ) (s : ℚ),
      bestMaxAux scores idx best = some (i, s) →
      (best = some (i, s) ∨ ∃ j, scores.get? j = some (some s) ∧ i = idx + j) ∧
        (∀ j t, scores.get? j = some (some t) → t ≤ s) ∧
        (∀ bi bs, best = some (bi, bs) → bs ≤ s) := by
  induction scores with
  | nil =>
      intro idx best i s h
      refine ⟨Or.inl h, ?_, ?_⟩
      · intro j t hj; simp at hj
      · intro bi bs hb
        rw [hb] at h
        cases h
        rfl
  | cons a rest ih =>
      intro idx best i s h
      cases a with
      | none =>
          obtain ⟨h1, h2, h3⟩ := ih (idx + 1) best i s h
          refine ⟨?_, ?_, h3⟩
          · rcases h1 with h1 | ⟨j, hj, hij⟩
            · exact Or.inl h1
            · exact Or.inr ⟨j + 1, by simpa using hj, by omega⟩
          · intro j t hj
            cases j with
            | zero => simp at hj
            | succ j => exact h2 j t (by simpa using hj)
      | some a =>
          cases best with
          | none =>
              obtain ⟨h1, h2, h3⟩ := ih (idx + 1) (some (idx, a)) i s h
              have has : a ≤ s := h3 idx a rfl
              refine ⟨?_, ?_, ?_⟩
              · rcases h1 with h1 | ⟨j, hj, hij⟩
                · cases h1
                  exact Or.inr ⟨0, rfl, by omega⟩
                · exact Or.inr ⟨j + 1, by simpa using hj, by omega⟩
              · intro j t hj
                cases j with
                | zero =>
                    simp only [List.get?] at hj
                    cases hj
                    exact has
                | succ j => exact h2 j t (by simpa using hj)
              · intro bi bs hb; cases hb
          | some p =>
              obtain ⟨bi0, bs0⟩ := p
              by_cases hlt : bs0 < a
              · rw [bestMaxAux, if_pos hlt] at h
                obtain ⟨h1, h2, h3⟩ := ih (idx + 1) (some (idx, a)) i s h
                have has : a ≤ s := h3 idx a rfl
                refine ⟨?_, ?_, ?_⟩
                · rcases h1 with h1 | ⟨j, hj, hij⟩
                  · cases h1
                    exact Or.inr ⟨0, rfl, by omega⟩
                  · exact Or.inr ⟨j + 1, by simpa using hj, by omega⟩
                · intro j t hj
                  cases j with
                  | zero =>
                      simp only [List.get?] at hj
                      cases hj
                      exact has
                  | succ j => exact h2 j t (by simpa using hj)
                · intro bi bs hb
                  cases hb
                  exact le_of_lt (lt_of_lt_of_le hlt has)
              · rw [bestMaxAux, if_neg hlt] at h
                obtain ⟨h1, h2, h3⟩ := ih (idx + 1) (some (bi0, bs0)) i s h
                have hbs : bs0 ≤ s := h3 bi0 bs0 rfl
                refine ⟨?_, ?_, ?_⟩
                · rcases h1 with h1 | ⟨j, hj, hij⟩
                  · exact Or.inl h1
                  · exact Or.inr ⟨j + 1, by simpa using hj, by omega⟩
                · intro j t hj
                  cases j with
                  | zero =>
                      simp only [List.get?] at hj
                      cases hj
                      exact le_trans (not_lt.mp hlt) hbs
                  | succ j => exact h2 j t (by simpa using hj)
                · intro bi bs hb
                  cases hb
                  exact hbs

/-- The silhouette loop returns `none` only when every score is
undefined. -/
theorem bestMaxAux_none (scores : List (Option ℚ)) :
    ∀ idx, (∀ j t, scores.get? j = some (some t) → False) →
      bestMaxAux scores idx none = none := by
  induction scores with
  | nil => intro idx _; rfl
  | cons a rest ih =>
      intro idx hundef
      cases a with
      | none =>
          exact ih (idx + 1) (fun j t hj => hundef (j + 1) t (by simpa using hj))
      | some a => exact (hundef 0 a rfl).elim

/-- If some score is defined, the silhouette loop returns a best pair. -/
theorem bestMaxAux_isSome (scores : List (Option ℚ)) :
    ∀ (idx : ℕ) (best : Option (ℕ × ℚ)),
      (best.isSome ∨ ∃ j t, scores.get? j = some (some t)) →
      (bestMaxAux scores idx best).isSome := by
  induction scores with
  | nil =>
      intro idx best h
      rcases h with h | ⟨j, t, hj⟩
      · exact h
      · simp at hj
  | cons a rest ih =>
      intro idx best h
      cases a with
      | none =>
          refine ih (idx + 1) best ?_
          rcases h with h | ⟨j, t, hj⟩
          · exact Or.inl h
          · cases j with
            | zero => simp at hj
            | succ j => exact Or.inr ⟨j, t, by simpa using hj⟩
      | some a =>
          cases best with
          | none => exact ih (idx + 1) (some (idx, a)) (Or.inl rfl)
          | some p =>
              obtain ⟨bi0, bs0⟩ := p
              by_cases hlt : bs0 < a
              · rw [bestMaxAux, if_pos hlt]
                exact ih (idx + 1) (some (idx, a)) (Or.inl rfl)
              · rw [bestMaxAux, if_neg hlt]
                exact ih (idx + 1) (some (bi0, bs0)) (Or.inl rfl)

/-- Soundness of the Davies–Bouldin minimum loop, dual to
`bestMaxAux_sound`. -/
theorem bestMinAux_sound (scores : List (Option ℚ)) :
    ∀ (idx : ℕ) (best : Option (ℕ × ℚ)) (i : ℕ) (s : ℚ),
      bestMinAux scores idx best = some (i, s) →
      (best = some (i, s) ∨ ∃ j, scores.get? j = some (some s) ∧ i = idx + j) ∧
        (∀ j t, scores.get? j = some (some t) → s ≤ t) ∧
        (∀ bi bs, best = some (bi, bs) → s ≤ bs) := by
  induction scores with
  | nil =>
      intro idx best i s h
      refine ⟨Or.inl h, ?_, ?_⟩
      · intro j t hj; simp at hj
      · intro bi bs hb
        rw [hb] at h
        cases h
        rfl
  | cons a rest ih =>
      intro idx best i s h
      cases a with
      | none =>
          obtain ⟨h1, h2, h3⟩ := ih (idx + 1) best i s h
          refine ⟨?_, ?_, h3⟩
          · rcases h1 with h1 | ⟨j, hj, hij⟩
            · exact Or.inl h1
            · exact Or.inr ⟨j + 1, by simpa using hj, by omega⟩
          · intro j t hj
            cases j with
            | zero => simp at hj
            | succ j => exact h2 j t (by simpa using hj)
      | some a =>
          cases best with
          | none =>
              obtain ⟨h1, h2, h3⟩ := ih (idx + 1) (some (idx, a)) i s h
              have has : s ≤ a := h3 idx a rfl
              refine ⟨?_, ?_, ?_⟩
              · rcases h1 with h1 | ⟨j, hj, hij⟩
                · cases h1
                  exact Or.inr ⟨0, rfl, by omega⟩
                · exact Or.inr ⟨j + 1, by simpa using hj, by omega⟩
              · intro j t hj
                cases j with
                | zero =>
                    simp only [List.get?] at hj
                    cases hj
                    exact has
                | succ j => exact h2 j t (by simpa using hj)
              · intro bi bs hb; cases hb
          | some p =>
              obtain ⟨bi0, bs0⟩ := p
              by_cases hlt : a < bs0
              · rw [bestMinAux, if_pos hlt] at h
                obtain ⟨h1, h2, h3⟩ := ih (idx + 1) (some (idx, a)) i s h
                have has : s ≤ a := h3 idx a rfl
                refine ⟨?_, ?_, ?_⟩
                · rcases h1 with h1 | ⟨j, hj, hij⟩
                  · cases h1
                    exact Or.inr ⟨0, rfl, by omega⟩
                  · exact Or.inr ⟨j + 1, by simpa using hj, by omega⟩
                · intro j t hj
                  cases j with
                  | zero =>
                      simp only [List.get?] at hj
                      cases hj
                      exact has
                  | succ j => exact h2 j t (by simpa using hj)
                · intro bi bs hb
                  cases hb
                  exact le_of_lt (lt_of_le_of_lt has hlt)
              · rw [bestMinAux, if_neg hlt] at h
                obtain ⟨h1, h2, h3⟩ := ih (idx + 1) (some (bi0, bs0)) i s h
                have hbs : s ≤ bs0 := h3 bi0 bs0 rfl
                refine ⟨?_, ?_, ?_⟩
                · rcases h1 with h1 | ⟨j, hj, hij⟩
                  · exact Or.inl h1
                  · exact Or.inr ⟨j + 1, by simpa using hj, by omega⟩
                · intro j t hj
                  cases j with
                  | zero =>
                      simp only [List.get?] at hj
                      cases hj
                      exact le_trans hbs (not_lt.mp hlt)
                  | succ j => exact h2 j t (by simpa using hj)
                · intro bi bs hb
                  cases hb
                  exact hbs

/-- The Davies–Bouldin loop returns `none` only when every score is
undefined. -/
theorem bestMinAux_none (scores : List (Option ℚ)) :
    ∀ idx, (∀ j t, scores.get? j = some (some t) → False) →
      bestMinAux scores idx none = none := by
  induction scores with
  | nil => intro idx _; rfl
  | cons a rest ih =>
      intro idx hundef
      cases a with
      | none =>
          exact ih (idx + 1) (fun j t hj => hundef (j + 1) t (by simpa using hj))
      | some a => exact (hundef 0 a rfl).elim

/-- If some score is defined, the Davies–Bouldin loop returns a best
pair. -/
theorem bestMinAux_isSome (scores : List (Option ℚ)) :
    ∀ (idx : ℕ) (best : Option (ℕ × ℚ)),
      (best.isSome ∨ ∃ j t, scores.get? j = some (some t)) →
      (bestMinAux scores idx best).isSome := by
  induction scores with
  | nil =>
      intro idx best h
      rcases h with h | ⟨j, t, hj⟩
      · exact h
      · simp at hj
  | cons a rest ih =>
      intro idx best h
      cases a with
      | none =>
          refine ih (idx + 1) best ?_
          rcases h with h | ⟨j, t, hj⟩
          · exact Or.inl h
          · cases j with
            | zero => simp at hj
            | succ j => exact Or.inr ⟨j, t, by simpa using hj⟩
      | some a =>
          cases best with
          | none => exact ih (idx + 1) (some (idx, a)) (Or.inl rfl)
          | some p =>
              obtain ⟨bi0, bs0⟩ := p
              by_cases hlt : a < bs0
              · rw [bestMinAux, if_pos hlt]
                exact ih (idx + 1) (some (idx, a)) (Or.inl rfl)
              · rw [bestMinAux, if_neg hlt]
                exact ih (idx + 1) (some (bi0, bs0)) (Or.inl rfl)

/-- C5: `_choose_k` follows exactly the priority order: a defined
(non-None, non-NaN) silhouette maximum first, else a defined
Davies–Bouldin minimum, else the size heuristic
`n ≤ 5 → 2, ≤ 50 → 3, ≤ 150 → 4, else 5` (also used when no metrics
are available). -/
theorem choose_k_priority (m : MetricsL) (n : ℕ)
    (hs : m.silhouette.length = m.k_values.length)
    (hd : m.davies_bouldin.length = m.k_values.length)
    (hk : m.k_values ≠ []) :
    ((∃ j t, m.silhouette.get? j = some (some t)) →
      ∃ i s, m.silhouette.get? i = some (some s) ∧
        (∀ j t, m.silhouette.get? j = some (some t) → t ≤ s) ∧
        i < m.k_values.length ∧ chooseK (some m) n = m.k_values.getD i 0) ∧
      ((∀ j t, m.silhouette.get? j = some (some t) → False) →
        (∃ j t, m.davies_bouldin.get? j = some (some t)) →
        ∃ i s, m.davies_bouldin.get? i = some (some s) ∧
          (∀ j t, m.davies_bouldin.get? j = some (some t) → s ≤ t) ∧
          i < m.k_values.length ∧ chooseK (some m) n = m.k_values.getD i 0) ∧
      ((∀ j t, m.silhouette.get? j = some (some t) → False) →
        (∀ j t, m.davies_bouldin.get? j = some (some t) → False) →
        chooseK (some m) n =
          (if n ≤ 5 then 2 else if n ≤ 50 then 3 else if n ≤ 150 then 4
            else 5)) ∧
      chooseK none n =
        (if n ≤ 5 then 2 else if n ≤ 50 then 3 else if n ≤ 150 then 4
          else 5) := by
  refine ⟨?_, ?_, ?_, rfl⟩
  · rintro ⟨j0, t0, hj0⟩
    have hsome := bestMaxAux_isSome m.silhouette 0 none (Or.inr ⟨j0, t0, hj0⟩)
    obtain ⟨⟨bi, bs⟩, hp⟩ := Option.isSome_iff_exists.mp hsome
    obtain ⟨h1, h2, -⟩ := bestMaxAux_sound m.silhouette 0 none bi bs hp
    rcases h1 with h1 | ⟨j1, hj1, hij1⟩
    · cases h1
    · have hbij : bi = j1 := by omega
      subst hbij
      have hjlt : bi < m.silhouette.length := (List.get?_eq_some.mp hj1).1
      refine ⟨bi, bs, hj1, h2, by omega, ?_⟩
      simp only [chooseK]
      rw [if_pos hk, hp]
  · intro hnos
    rintro ⟨j0, t0, hj0⟩
    have hnone := bestMaxAux_none m.silhouette 0 hnos
    have hsome := bestMinAux_isSome m.davies_bouldin 0 none (Or.inr ⟨j0, t0, hj0⟩)
    obtain ⟨⟨bi, bs⟩, hp⟩ := Option.isSome_iff_exists.mp hsome
    obtain ⟨h1, h2, -⟩ := bestMinAux_sound m.davies_bouldin 0 none bi bs hp
    rcases h1 with h1 | ⟨j1, hj1, hij1⟩
    · cases h1
    · have hbij : bi = j1 := by omega
      subst hbij
      have hjlt : bi < m.davies_bouldin.length := (List.get?_eq_some.mp hj1).1
      refine ⟨bi, bs, hj1, h2, by omega, ?_⟩
      simp only [chooseK]
      rw [if_pos hk, hnone, hp]
  · intro hnos hnod
    simp only [chooseK]
    rw [if_pos hk, bestMaxAux_none m.silhouette 0 hnos,
      bestMinAux_none m.davies_bouldin 0 hnod]
    rfl

/-- C5 witness: with silhouettes `[1/2, 3/4]` over `k ∈ [2, 3]`, the
defined-maximum branch fires. -/
theorem choose_k_priority_witness :
    ∃ i s,
      (MetricsL.mk [2, 3] [0, 0] [some (1/2), some (3/4)]
          [none, none]).silhouette.get? i = some (some s) ∧
        (∀ j t,
          (MetricsL.mk [2, 3] [0, 0] [some (1/2), some (3/4)]
              [none, none]).silhouette.get? j = some (some t) → t ≤ s) ∧
        i < (MetricsL.mk [2, 3] [0, 0] [some (1/2), some (3/4)]
          [none, none]).k_values.length ∧
        chooseK (some (MetricsL.mk [2, 3] [0, 0] [some (1/2), some (3/4)]
            [none, none])) 7 =
          (MetricsL.mk [2, 3] [0, 0] [some (1/2), some (3/4)]
            [none, none]).k_values.getD i 0 :=
  (choose_k_priority
    (MetricsL.mk [2, 3] [0, 0] [some (1/2), some (3/4)] [none, none]) 7
    rfl rfl (by decide)).1 ⟨0, 1/2, rfl⟩

/-- The ranking order the spec describes: strictly larger population
first, ties broken by the original cluster index (Python's stable
sort keeps the enumeration order of `range k` on equal keys). -/
def zoneLex (a b : RawZone) : Prop :=
  b.population < a.population ∨
    (a.population = b.population ∧ a.cluster < b.cluster)

instance : IsTotal RawZone (fun a b => b.population ≤ a.population) :=
  ⟨fun a b => le_total b.population a.population⟩

instance : IsTrans RawZone (fun a b => b.population ≤ a.population) :=
  ⟨fun _ _ _ hab hbc => le_trans hbc hab⟩

/-- The clusters of `raw_zones` keep the strictly increasing index
order of `range k` (empty clusters are skipped). -/
theorem rawZones_clusters (cells : List Cell) (labels : List ℕ) (k : ℕ) :
    (rawZones cells labels k).Pairwise (fun a b => a.cluster < b.cluster) := by
  unfold rawZones
  refine List.Pairwise.filterMap _ ?_ (List.pairwise_lt_range k)
  intro i j hij z hz z' hz'
  have hci : z.cluster = i := by
    by_cases hm : ((cells.zip labels).filter (fun p => p.2 = i)).map Prod.fst = []
    · rw [if_pos hm] at hz
      simp at hz
    · rw [if_neg hm] at hz
      rw [Option.mem_def, Option.some_inj] at hz
      rw [← hz]
      rfl
  have hcj : z'.cluster = j := by
    by_cases hm : ((cells.zip labels).filter (fun p => p.2 = j)).map Prod.fst = []
    · rw [if_pos hm] at hz'
      simp at hz'
    · rw [if_neg hm] at hz'
      rw [Option.mem_def, Option.some_inj] at hz'
      rw [← hz']
      rfl
  rw [hci, hcj]
  exact hij

/-- Inserting a zone whose cluster index is below every cluster index
of an already `zoneLex`-ordered list keeps the list `zoneLex`-ordered:
the insertion point puts it before every zone of equal population. -/
theorem orderedInsert_zoneLex (a : RawZone) :
    ∀ L : List RawZone, L.Pairwise zoneLex →
      (∀ b ∈ L, a.cluster < b.cluster) →
      (List.orderedInsert (fun x y => y.population ≤ x.population) a L).Pairwise
        zoneLex := by
  intro L
  induction L with
  | nil => intro _ _; simp [zoneLex]
  | cons b L' ih =>
      intro hp hcl
      by_cases hr : b.population ≤ a.population
      · rw [List.orderedInsert, if_pos hr]
        refine List.pairwise_cons.mpr ⟨?_, hp⟩
        intro c hc
        rcases List.mem_cons.mp hc with rfl | hc
        · rcases lt_or_eq_of_le hr with h | h
          · exact Or.inl h
          · exact Or.inr ⟨h.symm, hcl c (List.mem_cons_self _ _)⟩
        · have hbc := (List.pairwise_cons.mp hp).1 c hc
          rcases hbc with h | ⟨heq, -⟩
          · exact Or.inl (lt_of_lt_of_le h hr)
          · rcases lt_or_eq_of_le (heq ▸ hr) with h | h
            · exact Or.inl h
            · exact Or.inr ⟨h.symm, hcl c (List.mem_cons_of_mem b hc)⟩
      · rw [List.orderedInsert, if_neg hr]
        refine List.pairwise_cons.mpr ⟨?_, ?_⟩
        · intro c hc
          rcases (List.mem_orderedInsert _).mp hc with rfl | hc
          · exact Or.inl (lt_of_not_le hr)
          · exact (List.pairwise_cons.mp hp).1 c hc
        · exact ih (List.Pairwise.of_cons hp)
            (fun b' hb' => hcl b' (List.mem_cons_of_mem b hb'))

/-- Python's stable descending sort of the raw zones is `zoneLex`
ordered: population descending, ties by original cluster index. -/
theorem sortZones_zoneLex (zs : List RawZone)
    (h : zs.Pairwise (fun a b => a.cluster < b.cluster)) :
    (sortZones zs).Pairwise zoneLex := by
  induction zs with
  | nil => simp [sortZones]
  | cons a L ih =>
      have hmem : ∀ b ∈ sortZones L, a.cluster < b.cluster := by
        intro b hb
        exact (List.pairwise_cons.mp h).1 b
          ((List.perm_insertionSort _ L).mem_iff.mp hb)
      exact orderedInsert_zoneLex a (sortZones L)
        (ih (List.Pairwise.of_cons h)) hmem

/-- The zone ids attached by `enumerate(start)` are consecutive. -/
theorem attachIds_map_zone_id (counts : ℕ → ℕ) :
    ∀ (zs : List RawZone) (start : ℕ),
      (attachIds counts start zs).map ZoneInsight.zone_id =
        List.range' start zs.length := by
  intro zs
  induction zs with
  | nil => intro start; rfl
  | cons z rest ih =>
      intro start
      rw [List.length_cons, List.range'_succ]
      simpa [attachIds] using ih (start + 1)

/-- Attaching ids keeps the population sequence. -/
theorem attachIds_map_pop (counts : ℕ → ℕ) :
    ∀ (zs : List RawZone) (start : ℕ),
      (attachIds counts start zs).map ZoneInsight.population =
        zs.map RawZone.population := by
  intro zs
  induction zs with
  | nil => intro start; rfl
  | cons z rest ih =>
      intro start
      simpa [attachIds] using ih (start + 1)

/-- C6: zones leave synthesis sorted by `totalPopulation` descending,
the underlying ranking is the lexicographic order "population
descending, ties by original cluster index", and the assigned
`zone_id`s are exactly `1..len(zones)` with no gaps or repeats. -/
theorem zones_ranking (cells : List Cell) (metrics? : Option MetricsL)
    (labels predicted : List ℕ) :
    ((buildZones cells metrics? labels predicted).map
      ZoneInsight.population).Pairwise (fun a b => b ≤ a) ∧
      (buildZones cells metrics? labels predicted).map ZoneInsight.zone_id =
        List.range' 1 (buildZones cells metrics? labels predicted).length ∧
      (sortZones
        (rawZones cells labels (chooseK metrics? cells.length))).Pairwise
        zoneLex ∧
      (cells ≠ [] →
        ¬(chooseK metrics? cells.length < 2 ∨
          cells.length < chooseK metrics? cells.length) →
        buildZones cells metrics? labels predicted =
          attachIds (fun idx => (predicted.filter (fun l => l = idx)).length) 1
            (sortZones
              (rawZones cells labels (chooseK metrics? cells.length)))) := by
  have hLex : (sortZones
      (rawZones cells labels (chooseK metrics? cells.length))).Pairwise
      zoneLex :=
    sortZones_zoneLex _ (rawZones_clusters cells labels _)
  have hout : buildZones cells metrics? labels predicted = [] ∨
      buildZones cells metrics? labels predicted =
        attachIds (fun idx => (predicted.filter (fun l => l = idx)).length) 1
          (sortZones
            (rawZones cells labels (chooseK metrics? cells.length))) := by
    unfold buildZones
    split_ifs with h1 h2
    · exact Or.inl rfl
    · exact Or.inl rfl
    · exact Or.inr rfl
  have hlink : cells ≠ [] →
      ¬(chooseK metrics? cells.length < 2 ∨
        cells.length < chooseK metrics? cells.length) →
      buildZones cells metrics? labels predicted =
        attachIds (fun idx => (predicted.filter (fun l => l = idx)).length) 1
          (sortZones
            (rawZones cells labels (chooseK metrics? cells.length))) := by
    intro h1 h2
    unfold buildZones
    rw [if_neg h1, if_neg h2]
  refine ⟨?_, ?_, hLex, hlink⟩
  · rcases hout with h | h
    · rw [h]
      exact List.Pairwise.nil
    · rw [h, attachIds_map_pop]
      refine List.pairwise_map.mpr ?_
      refine hLex.imp ?_
      intro a b hab
      rcases hab with hlt | ⟨heq, -⟩
      · exact le_of_lt hlt
      · exact le_of_eq heq.symm
  · rcases hout with h | h
    · rw [h]
      rfl
    · rw [h, attachIds_map_zone_id, attachIds_length]

/-- C6 witness: the two-cell run emits zones whose ids are `1, 2` and
whose populations are descending. -/
theorem zones_ranking_witness :
    ((buildZones [⟨0, 0, 1⟩, ⟨1, 1, 1⟩] none [0, 1] []).map
      ZoneInsight.population).Pairwise (fun a b => b ≤ a) ∧
      (buildZones [⟨0, 0, 1⟩, ⟨1, 1, 1⟩] none [0, 1] []).map
          ZoneInsight.zone_id =
        List.range' 1 (buildZones [⟨0, 0, 1⟩, ⟨1, 1, 1⟩] none [0, 1] []).length ∧
      buildZones [⟨0, 0, 1⟩, ⟨1, 1, 1⟩] none [0, 1] [] =
        attachIds (fun idx => (([] : List ℕ).filter (fun l => l = idx)).length)
          1 (sortZones (rawZones [⟨0, 0, 1⟩, ⟨1, 1, 1⟩] [0, 1]
            (chooseK none ([⟨0, 0, 1⟩, ⟨1, 1, 1⟩] : List Cell).length))) :=
  ⟨(zones_ranking [⟨0, 0, 1⟩, ⟨1, 1, 1⟩] none [0, 1] []).1,
    (zones_ranking [⟨0, 0, 1⟩, ⟨1, 1, 1⟩] none [0, 1] []).2.1,
    (zones_ranking [⟨0, 0, 1⟩, ⟨1, 1, 1⟩] none [0, 1] []).2.2.2
      (by decide) (by decide)⟩

/-- `headD` is index `0` of `getD`. -/
theorem headD_eq_getD (v : List ℚ) : v.headD 0 = v.getD 0 0 := by
  cases v <;> rfl

/-- For a non-empty list, `getLastD` is `getD` at the last index. -/
theorem getLastD_eq_getD (v : List ℚ) :
    ∀ d : ℚ, v ≠ [] → v.getLastD d = v.getD (v.length - 1) 0 := by
  induction v with
  | nil => intro d h; exact absurd rfl h
  | cons a l ih =>
      intro d _
      rw [List.getLastD_cons]
      cases l with
      | nil => rfl
      | cons b t =>
          rw [ih a (by simp)]
          show (b :: t).getD ((b :: t).length - 1) 0 =
            (a :: b :: t).getD ((a :: b :: t).length - 1) 0
          have h1 : (a :: b :: t).length - 1 = t.length + 1 := by simp
          have h2 : (b :: t).length - 1 = t.length := by simp
          rw [h1, h2, List.getD_cons_succ]

/-- Entries of a sorted list are monotone in the index. -/
theorem sorted_getD_le (v : List ℚ) (hs : List.Sorted (· ≤ ·) v) (i j : ℕ)
    (hij : i ≤ j) (hj : j < v.length) : v.getD i 0 ≤ v.getD j 0 := by
  have hi : i < v.length := lt_of_le_of_lt hij hj
  rw [List.getD_eq_getElem v 0 hi, List.getD_eq_getElem v 0 hj]
  rcases eq_or_lt_of_le hij with rfl | hlt
  · exact le_refl _
  · exact List.pairwise_iff_getElem.mp hs i j hi hj hlt

/-- In a sorted list the head bounds every element from below. -/
theorem headD_le_mem (v : List ℚ) (hs : List.Sorted (· ≤ ·) v) :
    ∀ x ∈ v, v.headD 0 ≤ x := by
  intro x hx
  cases v with
  | nil => simp at hx
  | cons a t =>
      rcases List.mem_cons.mp hx with rfl | hx
      · exact le_refl _
      · exact List.rel_of_sorted_cons hs x hx

/-- In a sorted list the last element bounds every element from
above. -/
theorem mem_le_getLastD (v : List ℚ) (hs : List.Sorted (· ≤ ·) v) :
    ∀ x ∈ v, x ≤ v.getLastD 0 := by
  intro x hx
  have hne : v ≠ [] := List.ne_nil_of_mem hx
  obtain ⟨i, hi, rfl⟩ := List.mem_iff_getElem.mp hx
  rw [getLastD_eq_getD v 0 hne, ← List.getD_eq_getElem v 0 hi]
  exact sorted_getD_le v hs i (v.length - 1) (by omega) (by omega)

/-- At `q ≤ 0` the quantile is the first value. -/
theorem quantile_of_nonpos (v : List ℚ) (q : ℚ) (hne : v ≠ []) (hq : q ≤ 0) :
    quantile v q = v.headD 0 := by
  unfold quantile
  rw [if_neg hne, if_pos hq]

/-- At `q ≥ 1` the quantile is the last value. -/
theorem quantile_of_one_le (v : List ℚ) (q : ℚ) (hne : v ≠ []) (hq : 1 ≤ q) :
    quantile v q = v.getLastD 0 := by
  unfold quantile
  rw [if_neg hne, if_neg (not_le.mpr (lt_of_lt_of_le one_pos hq)), if_pos hq]

/-- For `0 < q < 1` the quantile is the linear interpolation between
the order statistics at `⌊(n−1)q⌋` and `⌈(n−1)q⌉` (the degenerate
`lo = hi` branch of the code agrees with the formula because the
fractional part is then zero). -/
theorem quantile_middle (v : List ℚ) (q : ℚ) (hne : v ≠ []) (h0 : 0 < q)
    (h1 : q < 1) :
    quantile v q =
      v.getD (⌊((v.length : ℚ) - 1) * q⌋).toNat 0 *
          (1 - (((v.length : ℚ) - 1) * q -
            ((⌊((v.length : ℚ) - 1) * q⌋ : ℤ) : ℚ))) +
        v.getD (⌈((v.length : ℚ) - 1) * q⌉).toNat 0 *
          (((v.length : ℚ) - 1) * q -
            ((⌊((v.length : ℚ) - 1) * q⌋ : ℤ) : ℚ)) := by
  have hlen : 0 < v.length := List.length_pos.mpr hne
  have hnn : (0 : ℚ) ≤ (v.length : ℚ) - 1 := by
    have h : (1 : ℚ) ≤ (v.length : ℚ) := by exact_mod_cast hlen
    linarith
  have hposnn : 0 ≤ ((v.length : ℚ) - 1) * q := mul_nonneg hnn (le_of_lt h0)
  have hfl0 : 0 ≤ ⌊((v.length : ℚ) - 1) * q⌋ :=
    Int.le_floor.mpr (by exact_mod_cast hposnn)
  unfold quantile
  rw [if_neg hne, if_neg (not_le.mpr h0), if_neg (not_le.mpr h1)]
  by_cases hlh : (⌊((v.length : ℚ) - 1) * q⌋).toNat =
      (⌈((v.length : ℚ) - 1) * q⌉).toNat
  · rw [if_pos hlh]
    have hfc : ⌊((v.length : ℚ) - 1) * q⌋ = ⌈((v.length : ℚ) - 1) * q⌉ := by
      have hle := Int.floor_le_ceil (((v.length : ℚ) - 1) * q)
      omega
    have hw : ((v.length : ℚ) - 1) * q -
        ((⌊((v.length : ℚ) - 1) * q⌋ : ℤ) : ℚ) = 0 := by
      have hle1 := Int.floor_le (((v.length : ℚ) - 1) * q)
      have hle2 := Int.le_ceil (((v.length : ℚ) - 1) * q)
      rw [← hfc] at hle2
      linarith
    rw [hw, ← hlh]
    ring
  · rw [if_neg hlh]

/-- The interpolation indices stay inside the list. -/
theorem quantile_idx_bounds (v : List ℚ) (q : ℚ) (hne : v ≠ []) (h0 : 0 < q)
    (h1 : q < 1) :
    (⌊((v.length : ℚ) - 1) * q⌋).toNat ≤
        (⌈((v.length : ℚ) - 1) * q⌉).toNat ∧
      (⌈((v.length : ℚ) - 1) * q⌉).toNat < v.length := by
  have hlen : 0 < v.length := List.length_pos.mpr hne
  have hnn : (0 : ℚ) ≤ (v.length : ℚ) - 1 := by
    have h : (1 : ℚ) ≤ (v.length : ℚ) := by exact_mod_cast hlen
    linarith
  have hceil : ⌈((v.length : ℚ) - 1) * q⌉ ≤ (v.length : ℤ) - 1 := by
    apply Int.ceil_le.mpr
    push_cast
    nlinarith
  have hfl := Int.floor_le_ceil (((v.length : ℚ) - 1) * q)
  constructor
  · omega
  · omega

/-- For `0 < q < 1` the quantile of a sorted list lies between the two
interpolated order statistics. -/
theorem quantile_middle_le (v : List ℚ) (q : ℚ) (hne : v ≠ [])
    (hs : List.Sorted (· ≤ ·) v) (h0 : 0 < q) (h1 : q < 1) :
    v.getD (⌊((v.length : ℚ) - 1) * q⌋).toNat 0 ≤ quantile v q ∧
      quantile v q ≤ v.getD (⌈((v.length : ℚ) - 1) * q⌉).toNat 0 := by
  obtain ⟨hij, hlt⟩ := quantile_idx_bounds v q hne h0 h1
  have hAB := sorted_getD_le v hs _ _ hij hlt
  have hw0 : 0 ≤ ((v.length : ℚ) - 1) * q -
      ((⌊((v.length : ℚ) - 1) * q⌋ : ℤ) : ℚ) :=
    sub_nonneg.mpr (Int.floor_le _)
  have hw1 : ((v.length : ℚ) - 1) * q -
      ((⌊((v.length : ℚ) - 1) * q⌋ : ℤ) : ℚ) ≤ 1 := by
    have := Int.lt_floor_add_one (((v.length : ℚ) - 1) * q)
    push_cast at this ⊢
    linarith
  rw [quantile_middle v q hne h0 h1]
  constructor
  · nlinarith [mul_nonneg (sub_nonneg.mpr hAB) hw0]
  · nlinarith [mul_nonneg (sub_nonneg.mpr hAB) (by linarith :
      (0 : ℚ) ≤ 1 - (((v.length : ℚ) - 1) * q -
        ((⌊((v.length : ℚ) - 1) * q⌋ : ℤ) : ℚ)))]

/-- Monotonicity of the quantile inside the interpolation region. -/
theorem quantile_mono_middle (v : List ℚ) (q1 q2 : ℚ) (hne : v ≠ [])
    (hs : List.Sorted (· ≤ ·) v) (ha : 0 < q1) (hb : q1 < 1) (hq2 : 0 < q2)
    (hc : q2 < 1) (h12 : q1 ≤ q2) : quantile v q1 ≤ quantile v q2 := by
  have hlen : 0 < v.length := List.length_pos.mpr hne
  have hnn : (0 : ℚ) ≤ (v.length : ℚ) - 1 := by
    have h : (1 : ℚ) ≤ (v.length : ℚ) := by exact_mod_cast hlen
    linarith
  have hpp : ((v.length : ℚ) - 1) * q1 ≤ ((v.length : ℚ) - 1) * q2 :=
    mul_le_mul_of_nonneg_left h12 hnn
  obtain ⟨hij1, hlt1⟩ := quantile_idx_bounds v q1 hne ha hb
  obtain ⟨hij2, hlt2⟩ := quantile_idx_bounds v q2 hne hq2 hc
  by_cases hcf : ⌈((v.length : ℚ) - 1) * q1⌉ ≤ ⌊((v.length : ℚ) - 1) * q2⌋
  · have h1 := (quantile_middle_le v q1 hne hs ha hb).2
    have h2 := (quantile_middle_le v q2 hne hs hq2 hc).1
    have hmid := sorted_getD_le v hs (⌈((v.length : ℚ) - 1) * q1⌉).toNat
      (⌊((v.length : ℚ) - 1) * q2⌋).toNat (by omega) (by omega)
    linarith
  · push_neg at hcf
    have hf12 : ⌊((v.length : ℚ) - 1) * q1⌋ ≤ ⌊((v.length : ℚ) - 1) * q2⌋ :=
      Int.floor_mono hpp
    have hcl1 := Int.ceil_le_floor_add_one (((v.length : ℚ) - 1) * q1)
    have hfc1 := Int.floor_le_ceil (((v.length : ℚ) - 1) * q1)
    have heq1 : ⌈((v.length : ℚ) - 1) * q1⌉ =
        ⌊((v.length : ℚ) - 1) * q2⌋ + 1 := by omega
    have heqf : ⌊((v.length : ℚ) - 1) * q1⌋ =
        ⌊((v.length : ℚ) - 1) * q2⌋ := by omega
    have hc2 := Int.ceil_le_floor_add_one (((v.length : ℚ) - 1) * q2)
    have hfc2 := Int.floor_le_ceil (((v.length : ℚ) - 1) * q2)
    rcases (by omega : ⌈((v.length : ℚ) - 1) * q2⌉ =
        ⌊((v.length : ℚ) - 1) * q2⌋ ∨
        ⌈((v.length : ℚ) - 1) * q2⌉ = ⌊((v.length : ℚ) - 1) * q2⌋ + 1) with
      he | he
    · exfalso
      have hint : ((v.length : ℚ) - 1) * q2 =
          ((⌊((v.length : ℚ) - 1) * q2⌋ : ℤ) : ℚ) := by
        have h2c := Int.le_ceil (((v.length : ℚ) - 1) * q2)
        rw [he] at h2c
        exact le_antisymm (by exact_mod_cast h2c)
          (Int.floor_le (((v.length : ℚ) - 1) * q2))
      have hp1 : ((v.length : ℚ) - 1) * q1 =
          ((⌊((v.length : ℚ) - 1) * q1⌋ : ℤ) : ℚ) := by
        refine le_antisymm ?_ (Int.floor_le (((v.length : ℚ) - 1) * q1))
        rw [heqf]
        calc ((v.length : ℚ) - 1) * q1 ≤ ((v.length : ℚ) - 1) * q2 := hpp
          _ = ((⌊((v.length : ℚ) - 1) * q2⌋ : ℤ) : ℚ) := hint
      have hcc : ⌈((v.length : ℚ) - 1) * q1⌉ =
          ⌊((v.length : ℚ) - 1) * q1⌋ := by
        conv_lhs => rw [hp1]
        exact Int.ceil_intCast _
      omega
    · rw [quantile_middle v q1 hne ha hb, quantile_middle v q2 hne hq2 hc]
      rw [heq1, heqf, he]
      have hupper : (⌊((v.length : ℚ) - 1) * q2⌋ + 1).toNat < v.length := by
        rw [he] at hlt2
        exact hlt2
      have hAB := sorted_getD_le v hs
        (⌊((v.length : ℚ) - 1) * q2⌋).toNat
        (⌊((v.length : ℚ) - 1) * q2⌋ + 1).toNat (by omega) hupper
      nlinarith [mul_nonneg (sub_nonneg.mpr hAB) (sub_nonneg.mpr hpp)]

/-- Full monotonicity of the quantile in `q`, for a sorted non-empty
value list. -/
theorem quantile_mono (v : List ℚ) (q1 q2 : ℚ) (hne : v ≠ [])
    (hs : List.Sorted (· ≤ ·) v) (h12 : q1 ≤ q2) :
    quantile v q1 ≤ quantile v q2 := by
  have hlen : 0 < v.length := List.length_pos.mpr hne
  rcases le_or_lt q1 0 with ha | ha
  · rw [quantile_of_nonpos v q1 hne ha, headD_eq_getD]
    rcases le_or_lt q2 0 with hb | hb
    · rw [quantile_of_nonpos v q2 hne hb, headD_eq_getD]
    · rcases lt_or_le q2 1 with hc | hc
      · obtain ⟨hij, hlt⟩ := quantile_idx_bounds v q2 hne hb hc
        have h1 := (quantile_middle_le v q2 hne hs hb hc).1
        have h2 := sorted_getD_le v hs 0 (⌊((v.length : ℚ) - 1) * q2⌋).toNat
          (Nat.zero_le _) (by omega)
        linarith
      · rw [quantile_of_one_le v q2 hne hc, getLastD_eq_getD v 0 hne]
        exact sorted_getD_le v hs 0 (v.length - 1) (Nat.zero_le _) (by omega)
  · rcases lt_or_le q1 1 with hb | hb
    · rcases lt_or_le q2 1 with hc | hc
      · exact quantile_mono_middle v q1 q2 hne hs ha hb
          (lt_of_lt_of_le ha h12) hc h12
      · rw [quantile_of_one_le v q2 hne hc, getLastD_eq_getD v 0 hne]
        have h1 := (quantile_middle_le v q1 hne hs ha hb).2
        obtain ⟨hij, hlt⟩ := quantile_idx_bounds v q1 hne ha hb
        have h2 := sorted_getD_le v hs (⌈((v.length : ℚ) - 1) * q1⌉).toNat
          (v.length - 1) (by omega) (by omega)
        linarith
    · have hc : 1 ≤ q2 := le_trans hb h12
      rw [quantile_of_one_le v q1 hne hb, quantile_of_one_le v q2 hne hc]

/-- C7: for a non-empty sorted value list, `quantile` at `0` is the
minimum, at `1` the maximum, it is non-decreasing in `q`, and for
`0 < q < 1` it is the linear interpolation between the order statistics
at `⌊(n−1)q⌋` and `⌈(n−1)q⌉`. -/
theorem quantile_spec (v : List ℚ) (q q1 q2 : ℚ) (hne : v ≠ [])
    (hs : List.Sorted (· ≤ ·) v) :
    (quantile v 0 = v.headD 0 ∧ ∀ x ∈ v, v.headD 0 ≤ x) ∧
      (quantile v 1 = v.getLastD 0 ∧ ∀ x ∈ v, x ≤ v.getLastD 0) ∧
      (q1 ≤ q2 → quantile v q1 ≤ quantile v q2) ∧
      (0 < q → q < 1 → quantile v q =
        v.getD (⌊((v.length : ℚ) - 1) * q⌋).toNat 0 *
            (1 - (((v.length : ℚ) - 1) * q -
              ((⌊((v.length : ℚ) - 1) * q⌋ : ℤ) : ℚ))) +
          v.getD (⌈((v.length : ℚ) - 1) * q⌉).toNat 0 *
            (((v.length : ℚ) - 1) * q -
              ((⌊((v.length : ℚ) - 1) * q⌋ : ℤ) : ℚ))) :=
  ⟨⟨quantile_of_nonpos v 0 hne le_rfl, headD_le_mem v hs⟩,
    ⟨quantile_of_one_le v 1 hne le_rfl, mem_le_getLastD v hs⟩,
    fun h => quantile_mono v q1 q2 hne hs h,
    fun h0 h1 => quantile_middle v q hne h0 h1⟩

/-- C7 witness: the sorted list `[1, 2, 4]` with `q = 1/2`,
`q1 = 1/4`, `q2 = 3/4`. -/
theorem quantile_spec_witness :
    (quantile [1, 2, 4] 0 = ([1, 2, 4] : List ℚ).headD 0 ∧
        ∀ x ∈ ([1, 2, 4] : List ℚ), ([1, 2, 4] : List ℚ).headD 0 ≤ x) ∧
      (quantile [1, 2, 4] 1 = ([1, 2, 4] : List ℚ).getLastD 0 ∧
        ∀ x ∈ ([1, 2, 4] : List ℚ), x ≤ ([1, 2, 4] : List ℚ).getLastD 0) ∧
      ((1 : ℚ)/4 ≤ 3/4 → quantile [1, 2, 4] (1/4) ≤ quantile [1, 2, 4] (3/4)) ∧
      ((0 : ℚ) < 1/2 → (1 : ℚ)/2 < 1 → quantile [1, 2, 4] (1/2) =
        ([1, 2, 4] : List ℚ).getD
              (⌊((([1, 2, 4] : List ℚ).length : ℚ) - 1) * (1/2)⌋).toNat 0 *
            (1 - (((([1, 2, 4] : List ℚ).length : ℚ) - 1) * (1/2) -
              ((⌊((([1, 2, 4] : List ℚ).length : ℚ) - 1) * (1/2)⌋ : ℤ) : ℚ))) +
          ([1, 2, 4] : List ℚ).getD
              (⌈((([1, 2, 4] : List ℚ).length : ℚ) - 1) * (1/2)⌉).toNat 0 *
            (((([1, 2, 4] : List ℚ).length : ℚ) - 1) * (1/2) -
              ((⌊((([1, 2, 4] : List ℚ).length : ℚ) - 1) * (1/2)⌋ : ℤ) : ℚ))) :=
  quantile_spec [1, 2, 4] (1/2) (1/4) (3/4) (by decide)
    (by norm_num [List.sorted_cons])

/-- The accumulation loop of `generate` appends exactly the surviving
rows' cells and adds exactly their populations. -/
theorem genStep_fold (T : ℚ → ℚ → ℚ × ℚ) (b : BBox) :
    ∀ (rows : List RawRow) (acc : List Cell × ℚ),
      (rows.foldl (genStep T b) acc).1 =
          acc.1 ++ ((rows.filter (survives T b)).map (toCell T)) ∧
        (rows.foldl (genStep T b) acc).2 =
          acc.2 + (((rows.filter (survives T b)).map popFill).sum) := by
  intro rows
  induction rows with
  | nil => intro acc; simp
  | cons r rest ih =>
      intro acc
      by_cases hr : survives T b r
      · rw [List.foldl_cons]
        have hstep : genStep T b acc r =
            (acc.1 ++ [toCell T r], acc.2 + popFill r) := by
          unfold genStep
          rw [if_pos hr]
        rw [hstep, List.filter_cons_of_pos hr]
        obtain ⟨h1, h2⟩ := ih (acc.1 ++ [toCell T r], acc.2 + popFill r)
        refine ⟨?_, ?_⟩
        · rw [h1]
          simp
        · rw [h2]
          simp only [List.map_cons, List.sum_cons]
          ring
      · rw [List.foldl_cons]
        have hstep : genStep T b acc r = acc := by
          unfold genStep
          rw [if_neg hr]
        rw [hstep, List.filter_cons_of_neg hr]
        exact ih acc

/-- The population of the cell built for a row is the filled
population of that row. -/
theorem toCell_pop (T : ℚ → ℚ → ℚ × ℚ) (r : RawRow) :
    (toCell T r).pop = popFill r := by
  rcases r with ⟨x, y, p⟩
  cases x <;> cases y <;> rfl

/-- The survival test, spelled out: both coordinates parse, the
transformed point is inside the box, and the filled population is
positive. -/
theorem survives_iff (T : ℚ → ℚ → ℚ × ℚ) (b : BBox) (r : RawRow) :
    survives T b r = true ↔
      ∃ a c, r.x = RawVal.num a ∧ r.y = RawVal.num c ∧
        b.south ≤ (T (a * 100) (c * 100)).2 ∧
        (T (a * 100) (c * 100)).2 ≤ b.north ∧
        b.west ≤ (T (a * 100) (c * 100)).1 ∧
        (T (a * 100) (c * 100)).1 ≤ b.east ∧ 0 < popFill r := by
  rcases r with ⟨x, y, p⟩
  cases x <;> cases y <;>
    simp [survives, and_assoc]

/-- If no row is malformed, `generate` succeeds; its cell list is
exactly the surviving rows mapped to cells, a row survives iff its
reprojected point is inside the box with positive filled population,
and every emitted cell is inside the box with positive population. -/
theorem ingestion_filter (T : ℚ → ℚ → ℚ × ℚ) (b : BBox) (rows : List RawRow)
    (hgood : ∀ r ∈ rows, hasBad r = false) :
    ∃ out, generate T b rows = Except.ok out ∧
      out.cells = (rows.filter (survives T b)).map (toCell T) ∧
      (∀ r ∈ rows, survives T b r = true ↔
        ∃ a c, r.x = RawVal.num a ∧ r.y = RawVal.num c ∧
          b.south ≤ (T (a * 100) (c * 100)).2 ∧
          (T (a * 100) (c * 100)).2 ≤ b.north ∧
          b.west ≤ (T (a * 100) (c * 100)).1 ∧
          (T (a * 100) (c * 100)).1 ≤ b.east ∧ 0 < popFill r) ∧
      (∀ cell ∈ out.cells, b.south ≤ cell.lat ∧ cell.lat ≤ b.north ∧
        b.west ≤ cell.lon ∧ cell.lon ≤ b.east ∧ 0 < cell.pop) := by
  have hany : rows.any hasBad = false := by
    rw [List.any_eq_false]
    intro r hr
    simp [hgood r hr]
  obtain ⟨h1, h2⟩ := genStep_fold T b rows ([], 0)
  refine ⟨⟨(rows.foldl (genStep T b) ([], 0)).1,
    (rows.foldl (genStep T b) ([], 0)).1.length,
    pyRound (rows.foldl (genStep T b) ([], 0)).2⟩, ?_, ?_, ?_, ?_⟩
  · unfold generate
    rw [hany]
    rfl
  · simpa using h1
  · intro r _
    exact survives_iff T b r
  · intro cell hcell
    rw [h1] at hcell
    simp only [List.nil_append, List.mem_map, List.mem_filter] at hcell
    obtain ⟨r, ⟨-, hr⟩, rfl⟩ := hcell
    obtain ⟨a, c, hx, hy, hb1, hb2, hb3, hb4, hp⟩ :=
      (survives_iff T b r).mp hr
    rcases r with ⟨x, y, p⟩
    cases hx
    cases hy
    exact ⟨hb1, hb2, hb3, hb4, by rw [toCell_pop]; exact hp⟩

/-- C2 witness: one well-formed in-box row under the identity
transform. -/
theorem ingestion_filter_witness :
    ∃ out, generate (fun a b => (a, b)) ⟨0, 0, 10, 10⟩
        [⟨RawVal.num 0, RawVal.num 0, RawVal.num 5⟩] = Except.ok out ∧
      out.cells = (([⟨RawVal.num 0, RawVal.num 0, RawVal.num 5⟩] :
            List RawRow).filter
          (survives (fun a b => (a, b)) ⟨0, 0, 10, 10⟩)).map
          (toCell (fun a b => (a, b))) ∧
      (∀ r ∈ ([⟨RawVal.num 0, RawVal.num 0, RawVal.num 5⟩] : List RawRow),
        survives (fun a b => (a, b)) ⟨0, 0, 10, 10⟩ r = true ↔
        ∃ a c, r.x = RawVal.num a ∧ r.y = RawVal.num c ∧
          (0 : ℚ) ≤ ((fun (a : ℚ) (b : ℚ) => (a, b)) (a * 100) (c * 100)).2 ∧
          ((fun (a : ℚ) (b : ℚ) => (a, b)) (a * 100) (c * 100)).2 ≤ 10 ∧
          (0 : ℚ) ≤ ((fun (a : ℚ) (b : ℚ) => (a, b)) (a * 100) (c * 100)).1 ∧
          ((fun (a : ℚ) (b : ℚ) => (a, b)) (a * 100) (c * 100)).1 ≤ 10 ∧
          0 < popFill r) ∧
      (∀ cell ∈ out.cells, (0 : ℚ) ≤ cell.lat ∧ cell.lat ≤ 10 ∧
        (0 : ℚ) ≤ cell.lon ∧ cell.lon ≤ 10 ∧ 0 < cell.pop) :=
  ingestion_filter (fun a b => (a, b)) ⟨0, 0, 10, 10⟩
    [⟨RawVal.num 0, RawVal.num 0, RawVal.num 5⟩] (by decide)

/-- Python's `round` lands within one half of its argument: it is a
nearest-integer rounding (ties to even). -/
theorem pyRound_close (q : ℚ) : |((pyRound q : ℤ) : ℚ) - q| ≤ 1/2 := by
  have hfr : Int.fract q = q - ((⌊q⌋ : ℤ) : ℚ) := rfl
  have h0 : 0 ≤ Int.fract q := Int.fract_nonneg q
  have h1 : Int.fract q < 1 := Int.fract_lt_one q
  unfold pyRound
  split_ifs with ha hb hc <;> rw [abs_le] <;> constructor <;> push_cast <;>
    linarith

/-- C8: when ingestion succeeds, the reported `total_population` is the
sum of the emitted cells' populations rounded with Python's `round`,
hence within one half of the exact sum. -/
theorem total_population_spec (T : ℚ → ℚ → ℚ × ℚ) (b : BBox)
    (rows : List RawRow) (hgood : ∀ r ∈ rows, hasBad r = false) :
    ∃ out, generate T b rows = Except.ok out ∧
      out.total_population = pyRound ((out.cells.map Cell.pop).sum) ∧
      |((out.total_population : ℤ) : ℚ) - (out.cells.map Cell.pop).sum| ≤
        1/2 := by
  have hany : rows.any hasBad = false := by
    rw [List.any_eq_false]
    intro r hr
    simp [hgood r hr]
  obtain ⟨h1, h2⟩ := genStep_fold T b rows ([], 0)
  have hpops : ((rows.foldl (genStep T b) ([], 0)).1.map Cell.pop) =
      ((rows.filter (survives T b)).map popFill) := by
    rw [h1]
    simp only [List.nil_append, List.map_map]
    have hco : Cell.pop ∘ toCell T = popFill := funext (toCell_pop T)
    rw [hco]
  have hsum : (rows.foldl (genStep T b) ([], 0)).2 =
      ((rows.foldl (genStep T b) ([], 0)).1.map Cell.pop).sum := by
    rw [h2, hpops]
    simp
  refine ⟨⟨(rows.foldl (genStep T b) ([], 0)).1,
    (rows.foldl (genStep T b) ([], 0)).1.length,
    pyRound (rows.foldl (genStep T b) ([], 0)).2⟩, ?_, ?_, ?_⟩
  · unfold generate
    rw [hany]
    rfl
  · rw [hsum]
  · rw [hsum]
    exact pyRound_close _

/-- C8 witness: the single surviving row of the C2 witness. -/
theorem total_population_spec_witness :
    ∃ out, generate (fun a b => (a, b)) ⟨0, 0, 10, 10⟩
        [⟨RawVal.num 0, RawVal.num 0, RawVal.num 5⟩] = Except.ok out ∧
      out.total_population = pyRound ((out.cells.map Cell.pop).sum) ∧
      |((out.total_population : ℤ) : ℚ) - (out.cells.map Cell.pop).sum| ≤
        1/2 :=
  total_population_spec (fun a b => (a, b)) ⟨0, 0, 10, 10⟩
    [⟨RawVal.num 0, RawVal.num 0, RawVal.num 5⟩] (by decide)

/-- The quantile of a list whose elements are all equal to `c` is `c`,
for every fraction. -/
theorem quantile_const (v : List ℚ) (c q : ℚ) (hne : v ≠ [])
    (hall : ∀ x ∈ v, x = c) : quantile v q = c := by
  have hgd : ∀ i, i < v.length → v.getD i 0 = c := by
    intro i hi
    rw [List.getD_eq_getElem v 0 hi]
    exact hall _ (List.getElem_mem hi)
  have hlen : 0 < v.length := List.length_pos.mpr hne
  rcases le_or_lt q 0 with h0 | h0
  · rw [quantile_of_nonpos v q hne h0, headD_eq_getD]
    exact hgd 0 hlen
  · rcases lt_or_le q 1 with h1 | h1
    · obtain ⟨hij, hlt⟩ := quantile_idx_bounds v q hne h0 h1
      rw [quantile_middle v q hne h0 h1, hgd _ (by omega), hgd _ hlt]
      ring
    · rw [quantile_of_one_le v q hne h1, getLastD_eq_getD v 0 hne]
      exact hgd (v.length - 1) (by omega)

/-- C9: every heat-map weight is the clamped normalized transform
floored at `0.03`, hence lies in `[0.03, 1]`; when all populations are
equal, every weight is the constant `0.03` (the ε-guarded denominator
path). -/
theorem heat_weights_spec (T : ℚ → ℚ) (cells : List Cell) (c : ℚ)
    (hne : cells ≠ []) :
    heatWeights T cells = cells.map (fun cl =>
        max (3/100) (clamp ((T cl.pop - loT T (cells.map Cell.pop)) /
          denom T (cells.map Cell.pop)) 0 1)) ∧
      (∀ w ∈ heatWeights T cells, 3/100 ≤ w ∧ w ≤ 1) ∧
      ((∀ cl ∈ cells, cl.pop = c) →
        ∀ w ∈ heatWeights T cells, w = 3/100) := by
  refine ⟨rfl, ?_, ?_⟩
  · intro w hw
    obtain ⟨cl, -, rfl⟩ := List.mem_map.mp hw
    unfold heatWeight
    constructor
    · exact le_max_left _ _
    · refine max_le (by norm_num) ?_
      unfold clamp
      refine max_le ?_ (min_le_left _ _)
      norm_num
  · intro hconst w hw
    obtain ⟨cl, hcl, rfl⟩ := List.mem_map.mp hw
    have hpopsne : cells.map Cell.pop ≠ [] := by
      simpa [List.map_eq_nil_iff] using hne
    have hsortne : sortAsc (cells.map Cell.pop) ≠ [] := by
      intro h
      apply hpopsne
      unfold sortAsc at h
      have hperm := (List.perm_insertionSort (· ≤ ·)
        (cells.map Cell.pop)).symm
      rw [h] at hperm
      exact hperm.eq_nil
    have hallsort : ∀ x ∈ sortAsc (cells.map Cell.pop), x = c := by
      intro x hx
      have hx' : x ∈ cells.map Cell.pop :=
        (List.perm_insertionSort (· ≤ ·) (cells.map Cell.pop)).mem_iff.mp hx
      obtain ⟨cl', hcl', rfl⟩ := List.mem_map.mp hx'
      exact hconst cl' hcl'
    have hlo : loT T (cells.map Cell.pop) = T c := by
      unfold loT
      rw [quantile_const _ c _ hsortne hallsort]
    have hhi : hiT T (cells.map Cell.pop) = T c := by
      unfold hiT
      rw [quantile_const _ c _ hsortne hallsort]
    have hd : denom T (cells.map Cell.pop) = 1 := by
      unfold denom
      rw [hlo, hhi]
      rw [if_neg (by norm_num)]
    unfold heatWeight
    rw [hlo, hd, hconst cl hcl, sub_self, zero_div]
    unfold clamp
    norm_num

/-- C9 witness: two cells with equal population `7` under the linear
transform. -/
theorem heat_weights_spec_witness :
    heatWeights transformLinear [⟨0, 0, 7⟩, ⟨1, 1, 7⟩] =
        ([⟨0, 0, 7⟩, ⟨1, 1, 7⟩] : List Cell).map (fun cl =>
          max (3/100) (clamp ((transformLinear cl.pop -
            loT transformLinear (([⟨0, 0, 7⟩, ⟨1, 1, 7⟩] : List Cell).map
              Cell.pop)) /
            denom transformLinear (([⟨0, 0, 7⟩, ⟨1, 1, 7⟩] : List Cell).map
              Cell.pop)) 0 1)) ∧
      (∀ w ∈ heatWeights transformLinear [⟨0, 0, 7⟩, ⟨1, 1, 7⟩],
        3/100 ≤ w ∧ w ≤ 1) ∧
      ∀ w ∈ heatWeights transformLinear [⟨0, 0, 7⟩, ⟨1, 1, 7⟩], w = 3/100 :=
  ⟨(heat_weights_spec transformLinear [⟨0, 0, 7⟩, ⟨1, 1, 7⟩] 7
      (by decide)).1,
    (heat_weights_spec transformLinear [⟨0, 0, 7⟩, ⟨1, 1, 7⟩] 7
      (by decide)).2.1,
    (heat_weights_spec transformLinear [⟨0, 0, 7⟩, ⟨1, 1, 7⟩] 7
      (by decide)).2.2 (by decide)⟩

end CityInsights
